import Mathlib

/-!
Verification of the Needleman-Wunsch string-alignment program
(`string_align.py`) against its natural-language specification.

The program is shallowly embedded: phoneme symbols are strings, the
Python floats are modelled as rationals, the module-level penalty
dictionary is modelled as a `Model` value (gap scalar plus a partial
pair-lookup function), and fallible code paths (the `exit(1)` on a
missing dictionary key, the `NameError` from the unbound `row_strings`
variable when the second sequence is empty, Python `IndexError`)
return `Except` errors.
-/

namespace StringAlign

/-- A phoneme symbol. In the source these are plain Python strings; the
gap marker is the literal string "-". -/
abbrev Sym := String

/-- Run-time failures of the embedded program.

* `missingEntry a b` — `_penalty` hit a `KeyError` for the pair `(a, b)`
  and the program called `exit(1)` (source lines 50-54);
* `unboundLocal` — the Python `NameError` raised at line 105 when
  `lstr2` is empty, because `row_strings`/`row_scores` are only ever
  assigned inside the `for j in range(len2)` loop body;
* `indexError` — an out-of-range list index (never reached on the
  in-range accesses the algorithm performs, but part of the model). -/
inductive AlignErr where
  | missingEntry (a b : Sym)
  | unboundLocal
  | indexError
deriving DecidableEq, Repr

/-- The cost model: the contents of the module-level `_penalty_scores`
dictionary.  The Python dict holds the gap scalar under the string key
`'-'` and pair penalties under tuple keys; since a tuple never equals a
string the two live in disjoint parts of the dict and are modelled as
separate fields.  `sub a b = none` models absence of the key `(a, b)`. -/
structure Model where
  gap : ℚ
  sub : Sym → Sym → Option ℚ

/-- `_penalty` applied to a tuple key (source lines 37-54): a successful
dictionary lookup, or the error path that prints and exits on `KeyError`. -/
def penaltyPair (m : Model) (a b : Sym) : Except AlignErr ℚ :=
  match m.sub a b with
  | some q => Except.ok q
  | none => Except.error (AlignErr.missingEntry a b)

/-- The pair penalty as a total function (used only where the entry is
known to exist). -/
def subq (m : Model) (a b : Sym) : ℚ :=
  (m.sub a b).getD 0

/-- The pair of gap-padded aligned strings carried per matrix cell
(`row_strings` elements). -/
abbrev Strs := List Sym × List Sym

/-- One DP matrix cell of the source: its score (`row_scores` element)
paired with its partial alignment (`row_strings` element). -/
abbrev Cell := ℚ × Strs

/-- The loop body's score-and-branch selection (source lines 83-99):
`match_score` (`diag.1 + p`), `ins_score` (`above.1 + m.gap`),
`del_score` (`cur.1 + m.gap`), their minimum, and the `if`/`elif`/`else`
chain building the new cell.  The insertion branch reproduces the
source exactly, including its mixing of components:
`lastrow_strings[i + 1][0] + ['-']` (from `above`) for the first string
but `lastrow_strings[i][1] + [lstr2[j]]` (from `diag`) for the second
(source line 96). -/
def cellChoice (m : Model) (a b : Sym) (diag above cur : Cell) (p : ℚ) : Cell :=
  let ms := diag.1 + p
  let is := above.1 + m.gap
  let ds := cur.1 + m.gap
  let s := min ms (min is ds)
  if s = ms then (s, (diag.2.1 ++ [a], diag.2.2 ++ [b]))
  else if s = is then (s, (above.2.1 ++ ["-"], diag.2.2 ++ [b]))
  else (s, (cur.2.1 ++ [a], cur.2.2 ++ ["-"]))

/-- The inner loop `for i in range(len1)` of `align` (source lines
81-99), processing the remaining symbols `rest1` of `lstr1` against the
current symbol `b = lstr2[j]`.

At loop index `i` the source reads `lastrow_scores[i]`/`lastrow_strings[i]`
(here `diag`), `lastrow_scores[i+1]`/`lastrow_strings[i+1]` (here
`above`), and `row_scores[i]`/`row_strings[i]`, which is the cell most
recently appended to the row under construction (here `cur`); so the
last row is consumed left to right and only the previous new cell need
be carried. -/
def rowRec (m : Model) (b : Sym) : List Sym → List Cell → Cell → Except AlignErr (List Cell)
  | [], _, _ => Except.ok []
  | a :: rest1, diag :: above :: lastrest, cur =>
    match penaltyPair m a b with
    | Except.error e => Except.error e
    | Except.ok p =>
      let c : Cell := cellChoice m a b diag above cur p
      match rowRec m b rest1 (above :: lastrest) c with
      | Except.error e => Except.error e
      | Except.ok tail => Except.ok (c :: tail)
  | _ :: _, _, _ => Except.error AlignErr.indexError

/-- The initial matrix row (source lines 72-73): scores
`[_penalty('-') * i for i in range(len1 + 1)]` and strings
`[(lstr1[:i], ['-'] * i) for i in range(len1 + 1)]`. -/
def row0 (m : Model) (lstr1 : List Sym) : List Cell :=
  (List.range (lstr1.length + 1)).map fun (i : ℕ) =>
    (m.gap * (i : ℚ), (lstr1.take i, List.replicate i "-"))

/-- The outer loop `for j in range(len2)` of `align` (source lines
76-102): each iteration builds the head cell of the new row (source
lines 78-79: score `_penalty('-') * (j + 1)`, strings
`(['-'] * (j + 1), lstr2[:j + 1])`), runs the inner loop, and replaces
`lastrow` with the new row.  When the remaining symbols of `lstr2` run
out it returns the last row built. -/
def nwLoop (m : Model) (lstr1 lstr2 : List Sym) : Nat → List Sym → List Cell → Except AlignErr (List Cell)
  | _, [], lastrow => Except.ok lastrow
  | j, b :: rest2, lastrow =>
    let c0 : Cell := (m.gap * ((j : ℚ) + 1), (List.replicate (j + 1) "-", lstr2.take (j + 1)))
    match rowRec m b lstr1 lastrow c0 with
    | Except.error e => Except.error e
    | Except.ok tail => nwLoop m lstr1 lstr2 (j + 1) rest2 (c0 :: tail)

/-- Round half to even at integer precision (the tie-breaking Python's
`round` uses); the fractional comparisons are exact on rationals. -/
def roundHalfEven (q : ℚ) : ℤ :=
  if q - (⌊q⌋ : ℚ) < 1 / 2 then ⌊q⌋
  else if q - (⌊q⌋ : ℚ) > 1 / 2 then ⌊q⌋ + 1
  else if ⌊q⌋ % 2 = 0 then ⌊q⌋ else ⌊q⌋ + 1

/-- `round(x, 2)` of the source (line 105), modelled on rationals. -/
def round2 (q : ℚ) : ℚ :=
  ((roundHalfEven (q * 100) : ℚ)) / 100

/-- The value returned by `align`: the two gap-padded strings and the
rounded score. -/
structure AlignResult where
  aligned1 : List Sym
  aligned2 : List Sym
  score : ℚ
deriving DecidableEq, Repr

instance {e : Type} {t : Type} [DecidableEq e] [DecidableEq t] : DecidableEq (Except e t) := fun x y =>
  match x, y with
  | Except.error u, Except.error v =>
    if h : u = v then Decidable.isTrue (congrArg Except.error h)
    else Decidable.isFalse (fun hh => h (Except.error.inj hh))
  | Except.ok u, Except.ok v =>
    if h : u = v then Decidable.isTrue (congrArg Except.ok h)
    else Decidable.isFalse (fun hh => h (Except.ok.inj hh))
  | Except.error _, Except.ok _ => Decidable.isFalse (fun hh => Except.noConfusion hh)
  | Except.ok _, Except.error _ => Decidable.isFalse (fun hh => Except.noConfusion hh)

/-- `align` (source lines 57-105).  When `lstr2` is empty the outer
loop body never runs, so the Python names `row_strings` and
`row_scores` are unbound at line 105 and the call raises `NameError`
(`unboundLocal` here).  Otherwise the returned value is element
`len(lstr1)` of the final row, with the score rounded to two decimal
places. -/
def align (m : Model) (lstr1 lstr2 : List Sym) : Except AlignErr AlignResult :=
  match lstr2 with
  | [] => Except.error AlignErr.unboundLocal
  | _ :: _ =>
    match nwLoop m lstr1 lstr2 0 lstr2 (row0 m lstr1) with
    | Except.error e => Except.error e
    | Except.ok finalRow =>
      match finalRow[lstr1.length]? with
      | some c => Except.ok ⟨c.2.1, c.2.2, round2 c.1⟩
      | none => Except.error AlignErr.indexError

/-! ## Cost-model construction (`_load_scores`, source lines 12-34)

The file tokenisation (reading lines, `split`, `float`/`int` parsing) is
input glue the spec places out of scope; `_load_scores` is modelled from
the point where the tokens are available: the weights line is a list of
rationals, and every later line is a `ScoreLine` (its first two tokens,
the ignored third token, and the remaining tokens as integers). -/

/-- One data line of the weights file, already tokenised: `sym1 = line[0]`,
`sym2 = line[1]`, `skipped = line[2]` (read by no code path), and
`feats = line[3:]` mapped through `int`. -/
structure ScoreLine where
  sym1 : Sym
  sym2 : Sym
  skipped : String
  feats : List ℤ
deriving DecidableEq, Repr

/-- `sum([x * y for x, y in zip(feature_match, feature_weights)])`
(source line 34).  Note the zip starts at `feature_weights[0]`, the gap
weight. -/
def dotZ (v : List ℤ) (w : List ℚ) : ℚ :=
  (List.zipWith (fun x y => (x : ℚ) * y) v w).sum

/-- The body of the `for line in wfile` loop (source lines 24-34): a
line whose first or second symbol is `'GAP'` is skipped; any other line
assigns the dictionary entry for its symbol pair to the zipped dot
product of `line[3:]` with `feature_weights` (later lines overwrite
earlier ones, as Python dict assignment does). -/
def insertLine (weights : List ℚ) (acc : Sym → Sym → Option ℚ) (l : ScoreLine) :
    Sym → Sym → Option ℚ :=
  if l.sym1 = "GAP" ∨ l.sym2 = "GAP" then acc
  else fun a b =>
    if a = l.sym1 ∧ b = l.sym2 then some (dotZ l.feats weights) else acc a b

/-- `_load_scores` (source lines 12-34): the gap scalar is
`feature_weights[0]` (an `IndexError` if the weights line is empty),
and the data lines are folded into the pair-penalty dictionary. -/
def loadScores (weights : List ℚ) (lines : List ScoreLine) : Except AlignErr Model :=
  match weights with
  | [] => Except.error AlignErr.indexError
  | w0 :: _ =>
    Except.ok
      { gap := w0
        sub := lines.foldl (insertLine weights) (fun _ _ => none) }

/-- `_penalty`'s behaviour on a pair key right after the lazy
`_load_scores` call: load the table, then look the pair up. -/
def loadedPenalty (weights : List ℚ) (lines : List ScoreLine) (a b : Sym) :
    Except AlignErr ℚ :=
  match loadScores weights lines with
  | Except.error e => Except.error e
  | Except.ok m => penaltyPair m a b

/-- The spec's description of the pair penalty: the dot product of the
mismatch vector with the feature-weight vector *excluding* the first
(gap) weight.  Stated from the spec's words, for comparison with
`dotZ l.feats weights` computed by the source. -/
def specPairPenalty (feats : List ℤ) (weights : List ℚ) : ℚ :=
  dotZ feats weights.tail

/-! ## Specification-side notions: global alignments and their cost -/

/-- One column of a global alignment: two symbols aligned, a symbol of
the second sequence aligned against a gap in the first (insertion), or
a symbol of the first sequence aligned against a gap in the second
(deletion). -/
inductive Step where
  | subst (a b : Sym)
  | ins (b : Sym)
  | del (a : Sym)
deriving DecidableEq, Repr

/-- The first sequence spelled by an alignment. -/
def proj1 : List Step → List Sym
  | [] => []
  | Step.subst a _ :: t => a :: proj1 t
  | Step.ins _ :: t => proj1 t
  | Step.del a :: t => a :: proj1 t

/-- The second sequence spelled by an alignment. -/
def proj2 : List Step → List Sym
  | [] => []
  | Step.subst _ b :: t => b :: proj2 t
  | Step.ins b :: t => b :: proj2 t
  | Step.del _ :: t => proj2 t

/-- Per-column cost: the pair penalty where both positions hold
symbols, the gap penalty where either position is a gap. -/
def stepCost (m : Model) : Step → ℚ
  | Step.subst a b => subq m a b
  | Step.ins _ => m.gap
  | Step.del _ => m.gap

/-- Total cost of an alignment: the sum of its per-column costs. -/
def alignCost (m : Model) (st : List Step) : ℚ :=
  (st.map (stepCost m)).sum

/-- `st` is a global alignment of `l1` and `l2`. -/
def IsAlignment (l1 l2 : List Sym) (st : List Step) : Prop :=
  proj1 st = l1 ∧ proj2 st = l2

/-- The minimal alignment cost, by the textbook head recursion. Proved
below to be attained by an alignment and to bound every alignment's
cost. -/
def mc (m : Model) : List Sym → List Sym → ℚ
  | [], [] => 0
  | _ :: as, [] => m.gap + mc m as []
  | [], _ :: bs => m.gap + mc m [] bs
  | a :: as, b :: bs =>
    min (subq m a b + mc m as bs)
      (min (m.gap + mc m (a :: as) bs) (m.gap + mc m as (b :: bs)))
termination_by xs ys => xs.length + ys.length

/-- Remove every gap marker from a gap-padded sequence. -/
def stripGaps (l : List Sym) : List Sym :=
  l.filter (fun s => s ≠ "-")

/-- The per-position cost of a returned aligned pair, recomputed
independently position by position (gap penalty where either side is
the gap marker, pair penalty otherwise). -/
def posCost (m : Model) : List Sym → List Sym → ℚ
  | a :: as, b :: bs =>
    (if a = "-" ∨ b = "-" then m.gap else subq m a b) + posCost m as bs
  | _, _ => 0

/-! ## Frame-threading form of `align`

To state that a call leaves the caller's argument lists untouched, the
same recursions are repeated with the caller's variable frame threaded
through every step and handed back on both the success and the error
path (in Python the caller's bindings survive an exception). -/

/-- The caller's variables: the two lists passed to `align`. -/
structure PyFrame where
  lstr1 : List Sym
  lstr2 : List Sym
deriving DecidableEq, Repr

/-- `rowRec` with the caller's frame threaded through each iteration. -/
def rowRecF (m : Model) (b : Sym) :
    List Sym → List Cell → Cell → PyFrame → Except AlignErr (List Cell) × PyFrame
  | [], _, _, fr => (Except.ok [], fr)
  | a :: rest1, diag :: above :: lastrest, cur, fr =>
    match penaltyPair m a b with
    | Except.error e => (Except.error e, fr)
    | Except.ok p =>
      let c : Cell := cellChoice m a b diag above cur p
      match rowRecF m b rest1 (above :: lastrest) c fr with
      | (Except.error e, fr2) => (Except.error e, fr2)
      | (Except.ok tail, fr2) => (Except.ok (c :: tail), fr2)
  | _ :: _, _, _, fr => (Except.error AlignErr.indexError, fr)

/-- `nwLoop` with the caller's frame threaded through each iteration;
the symbols are read off the frame's fields. -/
def nwLoopF (m : Model) : Nat → List Sym → List Cell → PyFrame → Except AlignErr (List Cell) × PyFrame
  | _, [], lastrow, fr => (Except.ok lastrow, fr)
  | j, b :: rest2, lastrow, fr =>
    let c0 : Cell := (m.gap * ((j : ℚ) + 1), (List.replicate (j + 1) "-", fr.lstr2.take (j + 1)))
    match rowRecF m b fr.lstr1 lastrow c0 fr with
    | (Except.error e, fr2) => (Except.error e, fr2)
    | (Except.ok tail, fr2) => nwLoopF m (j + 1) rest2 (c0 :: tail) fr2

/-- `align` reading its inputs through the caller's frame and returning
the frame alongside the result. -/
def alignF (m : Model) (fr : PyFrame) : Except AlignErr AlignResult × PyFrame :=
  match fr.lstr2 with
  | [] => (Except.error AlignErr.unboundLocal, fr)
  | b :: rest2 =>
    match nwLoopF m 0 (b :: rest2) (row0 m fr.lstr1) fr with
    | (Except.error e, fr2) => (Except.error e, fr2)
    | (Except.ok finalRow, fr2) =>
      match finalRow[fr2.lstr1.length]? with
      | some c => (Except.ok ⟨c.2.1, c.2.2, round2 c.1⟩, fr2)
      | none => (Except.error AlignErr.indexError, fr2)

/-! ## Lemmas about the minimal alignment cost -/

theorem mc_nil_nil (m : Model) : mc m [] [] = 0 := by
  simp [mc]

theorem mc_cons_nil (m : Model) (a : Sym) (as : List Sym) :
    mc m (a :: as) [] = m.gap + mc m as [] := by
  simp [mc]

theorem mc_nil_cons (m : Model) (b : Sym) (bs : List Sym) :
    mc m [] (b :: bs) = m.gap + mc m [] bs := by
  simp [mc]

theorem mc_cons_cons (m : Model) (a b : Sym) (as bs : List Sym) :
    mc m (a :: as) (b :: bs) =
      min (subq m a b + mc m as bs)
        (min (m.gap + mc m (a :: as) bs) (m.gap + mc m as (b :: bs))) := by
  simp [mc]

theorem mc_nil_right (m : Model) : ∀ xs : List Sym, mc m xs [] = (xs.length : ℚ) * m.gap := by
  intro xs
  induction xs with
  | nil => simp [mc_nil_nil]
  | cons a as ih =>
    rw [mc_cons_nil, ih]
    push_cast [List.length_cons]
    ring

theorem mc_nil_left (m : Model) : ∀ ys : List Sym, mc m [] ys = (ys.length : ℚ) * m.gap := by
  intro ys
  induction ys with
  | nil => simp [mc_nil_nil]
  | cons b bs ih =>
    rw [mc_nil_cons, ih]
    push_cast [List.length_cons]
    ring

theorem mc_le_subst (m : Model) (a b : Sym) (as bs : List Sym) :
    mc m (a :: as) (b :: bs) ≤ subq m a b + mc m as bs := by
  rw [mc_cons_cons]
  exact min_le_left _ _

theorem mc_le_ins (m : Model) (b : Sym) (xs bs : List Sym) :
    mc m xs (b :: bs) ≤ m.gap + mc m xs bs := by
  cases xs with
  | nil => rw [mc_nil_cons]
  | cons a as =>
    rw [mc_cons_cons]
    exact le_trans (min_le_right _ _) (min_le_left _ _)

theorem mc_le_del (m : Model) (a : Sym) (as ys : List Sym) :
    mc m (a :: as) ys ≤ m.gap + mc m as ys := by
  cases ys with
  | nil => rw [mc_cons_nil]
  | cons b bs =>
    rw [mc_cons_cons]
    exact le_trans (min_le_right _ _) (min_le_right _ _)

/-- Lower bound: the minimal cost is at most the cost of any global
alignment. -/
theorem mc_le_alignCost (m : Model) :
    ∀ st : List Step, ∀ xs ys, IsAlignment xs ys st → mc m xs ys ≤ alignCost m st := by
  intro st
  induction st with
  | nil =>
    intro xs ys h
    obtain ⟨h1, h2⟩ := h
    simp only [proj1] at h1
    simp only [proj2] at h2
    subst h1; subst h2
    simp [mc_nil_nil, alignCost]
  | cons s t ih =>
    intro xs ys h
    obtain ⟨h1, h2⟩ := h
    cases s with
    | subst a b =>
      simp only [proj1] at h1
      simp only [proj2] at h2
      subst h1; subst h2
      have hrec := ih (proj1 t) (proj2 t) ⟨rfl, rfl⟩
      have hstep := mc_le_subst m a b (proj1 t) (proj2 t)
      simp only [alignCost, List.map_cons, List.sum_cons, stepCost] at *
      linarith
    | ins b =>
      simp only [proj1] at h1
      simp only [proj2] at h2
      subst h1; subst h2
      have hrec := ih (proj1 t) (proj2 t) ⟨rfl, rfl⟩
      have hstep := mc_le_ins m b (proj1 t) (proj2 t)
      simp only [alignCost, List.map_cons, List.sum_cons, stepCost] at *
      linarith
    | del a =>
      simp only [proj1] at h1
      simp only [proj2] at h2
      subst h1; subst h2
      have hrec := ih (proj1 t) (proj2 t) ⟨rfl, rfl⟩
      have hstep := mc_le_del m a (proj1 t) (proj2 t)
      simp only [alignCost, List.map_cons, List.sum_cons, stepCost] at *
      linarith

/-- Attainment: some global alignment has exactly the minimal cost. -/
theorem mc_attained (m : Model) :
    ∀ xs ys, ∃ st, IsAlignment xs ys st ∧ alignCost m st = mc m xs ys := by
  suffices key : ∀ n : ℕ, ∀ xs ys : List Sym, xs.length + ys.length = n →
      ∃ st, IsAlignment xs ys st ∧ alignCost m st = mc m xs ys by
    intro xs ys
    exact key (xs.length + ys.length) xs ys rfl
  intro n
  induction n using Nat.strong_induction_on with
  | _ n ih =>
    intro xs ys hn
    cases xs with
    | nil =>
      cases ys with
      | nil =>
        exact ⟨[], ⟨rfl, rfl⟩, by simp [alignCost, mc_nil_nil]⟩
      | cons b bs =>
        obtain ⟨st, ⟨hp1, hp2⟩, hc⟩ :=
          ih bs.length (by simp only [List.length_cons, List.length_nil] at hn; omega) [] bs (by simp)
        refine ⟨Step.ins b :: st, ⟨by simpa [proj1], by simp [proj2, hp2]⟩, ?_⟩
        simp only [alignCost, List.map_cons, List.sum_cons, stepCost] at *
        rw [mc_nil_cons, hc]
    | cons a as =>
      cases ys with
      | nil =>
        obtain ⟨st, ⟨hp1, hp2⟩, hc⟩ :=
          ih as.length (by simp only [List.length_cons, List.length_nil] at hn; omega) as [] (by simp)
        refine ⟨Step.del a :: st, ⟨by simp [proj1, hp1], by simpa [proj2]⟩, ?_⟩
        simp only [alignCost, List.map_cons, List.sum_cons, stepCost] at *
        rw [mc_cons_nil, hc]
      | cons b bs =>
        obtain ⟨st1, ⟨h11, h12⟩, hc1⟩ :=
          ih (as.length + bs.length) (by simp only [List.length_cons] at hn; omega) as bs rfl
        obtain ⟨st2, ⟨h21, h22⟩, hc2⟩ :=
          ih ((a :: as).length + bs.length) (by simp only [List.length_cons] at hn ⊢; omega) (a :: as) bs rfl
        obtain ⟨st3, ⟨h31, h32⟩, hc3⟩ :=
          ih (as.length + (b :: bs).length) (by simp only [List.length_cons] at hn ⊢; omega) as (b :: bs) rfl
        rcases min_cases (subq m a b + mc m as bs)
            (min (m.gap + mc m (a :: as) bs) (m.gap + mc m as (b :: bs))) with
          ⟨hmin, _⟩ | ⟨hmin, _⟩
        · refine ⟨Step.subst a b :: st1, ⟨by simp [proj1, h11], by simp [proj2, h12]⟩, ?_⟩
          simp only [alignCost, List.map_cons, List.sum_cons, stepCost] at *
          rw [mc_cons_cons, hmin, hc1]
        · rcases min_cases (m.gap + mc m (a :: as) bs) (m.gap + mc m as (b :: bs)) with
            ⟨hmin2, _⟩ | ⟨hmin2, _⟩
          · refine ⟨Step.ins b :: st2, ⟨by simp [proj1, h21], by simp [proj2, h22]⟩, ?_⟩
            simp only [alignCost, List.map_cons, List.sum_cons, stepCost] at *
            rw [mc_cons_cons, hmin, hmin2, hc2]
          · refine ⟨Step.del a :: st3, ⟨by simp [proj1, h31], by simp [proj2, h32]⟩, ?_⟩
            simp only [alignCost, List.map_cons, List.sum_cons, stepCost] at *
            rw [mc_cons_cons, hmin, hmin2, hc3]

theorem proj1_append (u v : List Step) : proj1 (u ++ v) = proj1 u ++ proj1 v := by
  induction u with
  | nil => simp [proj1]
  | cons s t ih => cases s <;> simp [proj1, ih]

theorem proj2_append (u v : List Step) : proj2 (u ++ v) = proj2 u ++ proj2 v := by
  induction u with
  | nil => simp [proj2]
  | cons s t ih => cases s <;> simp [proj2, ih]

theorem proj1_reverse (st : List Step) : proj1 st.reverse = (proj1 st).reverse := by
  induction st with
  | nil => rfl
  | cons s t ih => cases s <;> simp [proj1, proj1_append, ih]

theorem proj2_reverse (st : List Step) : proj2 st.reverse = (proj2 st).reverse := by
  induction st with
  | nil => rfl
  | cons s t ih => cases s <;> simp [proj2, proj2_append, ih]

theorem alignCost_reverse (m : Model) (st : List Step) :
    alignCost m st.reverse = alignCost m st := by
  simp [alignCost, List.sum_reverse]

/-- The minimal cost is invariant under simultaneously reversing both
sequences: alignments reverse, preserving cost. -/
theorem mc_reverse (m : Model) (xs ys : List Sym) :
    mc m xs.reverse ys.reverse = mc m xs ys := by
  have key : ∀ us vs : List Sym, mc m us.reverse vs.reverse ≤ mc m us vs := by
    intro us vs
    obtain ⟨st, ⟨hp1, hp2⟩, hc⟩ := mc_attained m us vs
    have hrev : IsAlignment us.reverse vs.reverse st.reverse :=
      ⟨by rw [proj1_reverse, hp1], by rw [proj2_reverse, hp2]⟩
    calc mc m us.reverse vs.reverse ≤ alignCost m st.reverse := mc_le_alignCost m _ _ _ hrev
      _ = alignCost m st := alignCost_reverse m st
      _ = mc m us vs := hc
  refine le_antisymm (key xs ys) ?_
  have h2 := key xs.reverse ys.reverse
  simpa using h2

/-- The recurrence satisfied by the minimal cost when both sequences
grow at the right end — the form the row-major DP computes, with the
three candidates in the source's order. -/
theorem mc_snoc_snoc (m : Model) (xs ys : List Sym) (a b : Sym) :
    mc m (xs ++ [a]) (ys ++ [b]) =
      min (mc m xs ys + subq m a b)
        (min (mc m (xs ++ [a]) ys + m.gap) (mc m xs (ys ++ [b]) + m.gap)) := by
  have h1 : mc m (xs ++ [a]) (ys ++ [b]) = mc m (a :: xs.reverse) (b :: ys.reverse) := by
    rw [← mc_reverse]
    simp
  have h2 : mc m xs.reverse ys.reverse = mc m xs ys := mc_reverse m xs ys
  have h3 : mc m (a :: xs.reverse) ys.reverse = mc m (xs ++ [a]) ys := by
    rw [← mc_reverse m (xs ++ [a]) ys]
    simp
  have h4 : mc m xs.reverse (b :: ys.reverse) = mc m xs (ys ++ [b]) := by
    rw [← mc_reverse m xs (ys ++ [b])]
    simp
  rw [h1, mc_cons_cons, h2, h3, h4, add_comm (subq m a b), add_comm m.gap (mc m (xs ++ [a]) ys),
    add_comm m.gap (mc m xs (ys ++ [b]))]

/-- Growing only the first sequence at the right end. -/
theorem mc_snoc_nil (m : Model) (xs : List Sym) (a : Sym) :
    mc m (xs ++ [a]) [] = mc m xs [] + m.gap := by
  rw [mc_nil_right, mc_nil_right]
  push_cast [List.length_append, List.length_singleton]
  ring

/-! ## The DP invariant

Each cell of the matrix row for the consumed prefix `pre2` of `lstr2`,
sitting at the column for the consumed prefix `pre1` of `lstr1`, holds
the minimal prefix-alignment cost as its score, and holds strings that
strip (gap markers removed) to the strips of `pre1` and `pre2`. -/

/-- The invariant of a single cell. -/
def CellInv (m : Model) (pre1 pre2 : List Sym) (c : Cell) : Prop :=
  c.1 = mc m pre1 pre2 ∧
    stripGaps c.2.1 = stripGaps pre1 ∧ stripGaps c.2.2 = stripGaps pre2

/-- `cells` is the suffix of the row for `done2` whose columns consume
`acc1`, `acc1 ++ [a]`, ... up to `acc1 ++ rest1`. -/
def RowInv (m : Model) (done2 : List Sym) : List Sym → List Sym → List Cell → Prop
  | acc1, [], cells => ∃ c, cells = [c] ∧ CellInv m acc1 done2 c
  | acc1, a :: rest1, cells =>
    ∃ c tail, cells = c :: tail ∧ CellInv m acc1 done2 c ∧
      RowInv m done2 (acc1 ++ [a]) rest1 tail

theorem rowInv_head (m : Model) (done2 : List Sym) :
    ∀ acc1 rest1 cells, RowInv m done2 acc1 rest1 cells →
      ∃ c tail2, cells = c :: tail2 ∧ CellInv m acc1 done2 c := by
  intro acc1 rest1 cells h
  cases rest1 with
  | nil =>
    simp only [RowInv] at h
    obtain ⟨c, hc, h1⟩ := h
    exact ⟨c, [], hc, h1⟩
  | cons a rest =>
    simp only [RowInv] at h
    obtain ⟨c, tail, hc, h1, _⟩ := h
    exact ⟨c, tail, hc, h1⟩

theorem stripGaps_append (u v : List Sym) :
    stripGaps (u ++ v) = stripGaps u ++ stripGaps v := by
  simp [stripGaps, List.filter_append]

theorem stripGaps_gap_replicate (n : ℕ) : stripGaps (List.replicate n "-") = [] := by
  induction n with
  | zero => rfl
  | succ k ih =>
    rw [List.replicate_succ]
    simp only [stripGaps, List.filter_cons] at *
    simp [ih]

theorem stripGaps_gap_singleton : stripGaps ["-"] = [] := by
  simp [stripGaps]

/-- The inner loop preserves the invariant: given the last row's suffix
and the invariant cell already appended for the current column, it
succeeds (when every needed pair penalty exists) and produces the rest
of the new row, each cell optimal for its prefix pair. -/
theorem rowRec_inv (m : Model) (b : Sym) :
    ∀ rest1 acc1 done2 cells cur,
      (∀ a ∈ rest1, (m.sub a b).isSome) →
      RowInv m done2 acc1 rest1 cells →
      CellInv m acc1 (done2 ++ [b]) cur →
      ∃ out, rowRec m b rest1 cells cur = Except.ok out ∧
        RowInv m (done2 ++ [b]) acc1 rest1 (cur :: out) := by
  intro rest1
  induction rest1 with
  | nil =>
    intro acc1 done2 cells cur hdef hrow hcur
    simp only [RowInv] at hrow
    obtain ⟨c, hc, h1⟩ := hrow
    subst hc
    refine ⟨[], by simp [rowRec], ?_⟩
    simp only [RowInv]
    exact ⟨cur, rfl, hcur⟩
  | cons a rest ih =>
    intro acc1 done2 cells cur hdef hrow hcur
    simp only [RowInv] at hrow
    obtain ⟨diag, tail, hcells, hdiag, htail⟩ := hrow
    obtain ⟨above, tail2, htail2, habove⟩ := rowInv_head m done2 (acc1 ++ [a]) rest tail htail
    subst hcells
    subst htail2
    have hsome : (m.sub a b).isSome := hdef a (List.mem_cons_self a rest)
    obtain ⟨p, hp⟩ := Option.isSome_iff_exists.mp hsome
    have hpq : p = subq m a b := by simp [subq, hp]
    obtain ⟨hd1, hd2, hd3⟩ := hdiag
    obtain ⟨ha1, ha2, ha3⟩ := habove
    obtain ⟨hc1, hc2, hc3⟩ := hcur
    have hs : min (diag.1 + p) (min (above.1 + m.gap) (cur.1 + m.gap)) =
        mc m (acc1 ++ [a]) (done2 ++ [b]) := by
      rw [hd1, ha1, hc1, hpq, mc_snoc_snoc]
    simp only [rowRec, cellChoice, penaltyPair, hp]
    split_ifs with hif1 hif2
    · -- match branch
      obtain ⟨out2, hout2, hrow2⟩ := ih (acc1 ++ [a]) done2 (above :: tail2)
        (min (diag.1 + p) (min (above.1 + m.gap) (cur.1 + m.gap)),
          (diag.2.1 ++ [a], diag.2.2 ++ [b]))
        (fun x hx => hdef x (List.mem_cons_of_mem a hx)) htail
        ⟨hs, by rw [stripGaps_append, stripGaps_append, hd2],
          by rw [stripGaps_append, stripGaps_append, hd3]⟩
      rw [hout2]
      refine ⟨_, rfl, ?_⟩
      simp only [RowInv]
      exact ⟨cur, _, rfl, ⟨hc1, hc2, hc3⟩, hrow2⟩
    · -- insertion branch (the source's mixed-components append)
      obtain ⟨out2, hout2, hrow2⟩ := ih (acc1 ++ [a]) done2 (above :: tail2)
        (min (diag.1 + p) (min (above.1 + m.gap) (cur.1 + m.gap)),
          (above.2.1 ++ ["-"], diag.2.2 ++ [b]))
        (fun x hx => hdef x (List.mem_cons_of_mem a hx)) htail
        ⟨hs, by rw [stripGaps_append, ha2, stripGaps_gap_singleton, List.append_nil],
          by rw [stripGaps_append, stripGaps_append, hd3]⟩
      rw [hout2]
      refine ⟨_, rfl, ?_⟩
      simp only [RowInv]
      exact ⟨cur, _, rfl, ⟨hc1, hc2, hc3⟩, hrow2⟩
    · -- deletion branch
      obtain ⟨out2, hout2, hrow2⟩ := ih (acc1 ++ [a]) done2 (above :: tail2)
        (min (diag.1 + p) (min (above.1 + m.gap) (cur.1 + m.gap)),
          (cur.2.1 ++ [a], cur.2.2 ++ ["-"]))
        (fun x hx => hdef x (List.mem_cons_of_mem a hx)) htail
        ⟨hs, by rw [stripGaps_append, stripGaps_append, hc2],
          by rw [stripGaps_append, hc3, stripGaps_gap_singleton, List.append_nil,
            stripGaps_append]⟩
      rw [hout2]
      refine ⟨_, rfl, ?_⟩
      simp only [RowInv]
      exact ⟨cur, _, rfl, ⟨hc1, hc2, hc3⟩, hrow2⟩

theorem take_len_append (u v : List Sym) : (u ++ v).take u.length = u := by
  induction u with
  | nil => simp
  | cons x xs ih => simp [List.take_cons, ih]

/-- The initial row satisfies the invariant (generalised over a
consumed prefix `acc1`, to make the induction go through). -/
theorem rowInv_row0_aux (m : Model) :
    ∀ rest1 acc1 : List Sym,
      RowInv m [] acc1 rest1 ((List.range (rest1.length + 1)).map fun (i : ℕ) =>
        (m.gap * ((acc1.length + i : ℕ) : ℚ),
          ((acc1 ++ rest1).take (acc1.length + i), List.replicate (acc1.length + i) "-"))) := by
  intro rest1
  induction rest1 with
  | nil =>
    intro acc1
    simp only [List.length_nil, Nat.zero_add, List.range_succ, List.range_zero,
      List.nil_append, List.map_cons, List.map_nil, RowInv]
    refine ⟨_, rfl, ?_, ?_, ?_⟩
    · show m.gap * ((acc1.length + 0 : ℕ) : ℚ) = mc m acc1 []
      rw [mc_nil_right]
      push_cast
      ring
    · show stripGaps ((acc1 ++ []).take (acc1.length + 0)) = stripGaps acc1
      simp
    · show stripGaps (List.replicate (acc1.length + 0) "-") = stripGaps []
      rw [stripGaps_gap_replicate]
      rfl
  | cons a rest ih =>
    intro acc1
    have hfun : (fun (i : ℕ) =>
          (m.gap * ((acc1.length + Nat.succ i : ℕ) : ℚ),
            ((acc1 ++ a :: rest).take (acc1.length + Nat.succ i),
              List.replicate (acc1.length + Nat.succ i) "-")))
        = (fun (i : ℕ) =>
          (m.gap * (((acc1 ++ [a]).length + i : ℕ) : ℚ),
            (((acc1 ++ [a]) ++ rest).take ((acc1 ++ [a]).length + i),
              List.replicate ((acc1 ++ [a]).length + i) "-"))) := by
      funext i
      have h1 : acc1.length + Nat.succ i = (acc1 ++ [a]).length + i := by
        simp [List.length_append]
        omega
      rw [h1, List.append_cons acc1 a rest]
    rw [List.length_cons, List.range_succ_eq_map, List.map_cons, List.map_map]
    simp only [RowInv]
    refine ⟨_, _, rfl, ⟨?_, ?_, ?_⟩, ?_⟩
    · show m.gap * ((acc1.length + 0 : ℕ) : ℚ) = mc m acc1 []
      rw [mc_nil_right]
      push_cast
      ring
    · show stripGaps ((acc1 ++ a :: rest).take (acc1.length + 0)) = stripGaps acc1
      rw [Nat.add_zero, show acc1 ++ a :: rest = acc1 ++ (a :: rest) from rfl,
        take_len_append]
    · show stripGaps (List.replicate (acc1.length + 0) "-") = stripGaps []
      rw [stripGaps_gap_replicate]
      rfl
    · have hcomp : ((fun (i : ℕ) =>
            (m.gap * ((acc1.length + i : ℕ) : ℚ),
              ((acc1 ++ a :: rest).take (acc1.length + i),
                List.replicate (acc1.length + i) "-"))) ∘ Nat.succ)
          = (fun (i : ℕ) =>
            (m.gap * (((acc1 ++ [a]).length + i : ℕ) : ℚ),
              (((acc1 ++ [a]) ++ rest).take ((acc1 ++ [a]).length + i),
                List.replicate ((acc1 ++ [a]).length + i) "-"))) := by
        rw [← hfun]
        rfl
      rw [hcomp]
      exact ih (acc1 ++ [a])

/-- The invariant for the source's initial row. -/
theorem rowInv_row0 (m : Model) (lstr1 : List Sym) :
    RowInv m [] [] lstr1 (row0 m lstr1) := by
  have h := rowInv_row0_aux m lstr1 []
  simpa [row0] using h

/-- The outer loop preserves the invariant across rows and succeeds
when every pair penalty it needs exists. -/
theorem nwLoop_inv (m : Model) (lstr1 lstr2 : List Sym)
    (hdef : ∀ a ∈ lstr1, ∀ b ∈ lstr2, (m.sub a b).isSome) :
    ∀ rest2 done2 lastrow, lstr2 = done2 ++ rest2 →
      RowInv m done2 [] lstr1 lastrow →
      ∃ out, nwLoop m lstr1 lstr2 done2.length rest2 lastrow = Except.ok out ∧
        RowInv m lstr2 [] lstr1 out := by
  intro rest2
  induction rest2 with
  | nil =>
    intro done2 lastrow hsplit hrow
    rw [List.append_nil] at hsplit
    subst hsplit
    exact ⟨lastrow, by simp [nwLoop], hrow⟩
  | cons b rest ih =>
    intro done2 lastrow hsplit hrow
    have hbmem : b ∈ lstr2 := by rw [hsplit]; simp
    have htake : lstr2.take (done2.length + 1) = done2 ++ [b] := by
      have hlen1 : done2.length + 1 = (done2 ++ [b]).length := by
        simp [List.length_append]
      rw [hsplit, List.append_cons done2 b rest, hlen1, take_len_append]
    have hc0 : CellInv m [] (done2 ++ [b])
        (m.gap * ((done2.length : ℚ) + 1),
          (List.replicate (done2.length + 1) "-", lstr2.take (done2.length + 1))) := by
      refine ⟨?_, ?_, ?_⟩
      · show m.gap * ((done2.length : ℚ) + 1) = mc m [] (done2 ++ [b])
        rw [mc_nil_left]
        push_cast [List.length_append, List.length_singleton]
        ring
      · show stripGaps (List.replicate (done2.length + 1) "-") = stripGaps []
        rw [stripGaps_gap_replicate]
        rfl
      · rw [htake]
    obtain ⟨tail, htail, hrow2⟩ := rowRec_inv m b lstr1 [] done2 lastrow
      (m.gap * ((done2.length : ℚ) + 1),
        (List.replicate (done2.length + 1) "-", lstr2.take (done2.length + 1)))
      (fun a ha => hdef a ha b hbmem) hrow hc0
    simp only [nwLoop, htail]
    have hsplit2 : lstr2 = (done2 ++ [b]) ++ rest := by
      rw [hsplit, List.append_cons]
    have hlen : done2.length + 1 = (done2 ++ [b]).length := by
      simp [List.length_append]
    have hrec := ih (done2 ++ [b]) _ hsplit2 hrow2
    rwa [← hlen] at hrec

/-- Reading off the final element of a row satisfying the invariant. -/
theorem rowInv_get (m : Model) (done2 : List Sym) :
    ∀ rest1 acc1 cells, RowInv m done2 acc1 rest1 cells →
      ∃ c, cells[rest1.length]? = some c ∧ CellInv m (acc1 ++ rest1) done2 c := by
  intro rest1
  induction rest1 with
  | nil =>
    intro acc1 cells h
    simp only [RowInv] at h
    obtain ⟨c, hc, h1⟩ := h
    subst hc
    exact ⟨c, rfl, by simpa using h1⟩
  | cons a rest ih =>
    intro acc1 cells h
    simp only [RowInv] at h
    obtain ⟨c, tail, hc, h1, htail⟩ := h
    subst hc
    obtain ⟨cl, hcl, hinv⟩ := ih (acc1 ++ [a]) tail htail
    refine ⟨cl, ?_, ?_⟩
    · simpa [List.length_cons] using hcl
    · rwa [← List.append_cons] at hinv

theorem row0_length (m : Model) (lstr1 : List Sym) :
    (row0 m lstr1).length = lstr1.length + 1 := by
  simp [row0]

/-- Success of `align` under a fully-defined cost model, and the
invariant of the cell whose contents it returns. -/
theorem align_ok (m : Model) (l1 l2 : List Sym) (h2 : l2 ≠ [])
    (hdef : ∀ a ∈ l1, ∀ b ∈ l2, (m.sub a b).isSome) :
    ∃ c, align m l1 l2 = Except.ok ⟨c.2.1, c.2.2, round2 c.1⟩ ∧ CellInv m l1 l2 c := by
  cases hl2 : l2 with
  | nil => exact absurd hl2 h2
  | cons b rest =>
    subst hl2
    obtain ⟨out, hout, hrow⟩ := nwLoop_inv m l1 (b :: rest) hdef (b :: rest) [] (row0 m l1)
      rfl (rowInv_row0 m l1)
    obtain ⟨c, hc, hinv⟩ := rowInv_get m (b :: rest) l1 [] out hrow
    simp only [List.length_nil] at hout
    refine ⟨c, ?_, by simpa using hinv⟩
    simp only [align, hout, hc]

/-! ## Case analysis for the error path -/

/-- Either the inner loop succeeds — and then every pair it needed was
present — or it aborts with a `missingEntry` error for a pair that is
genuinely absent. -/
theorem rowRec_cases (m : Model) (b : Sym) :
    ∀ rest1 cells cur, cells.length = rest1.length + 1 →
      (∃ out, rowRec m b rest1 cells cur = Except.ok out ∧ out.length = rest1.length ∧
        ∀ a ∈ rest1, (m.sub a b).isSome) ∨
      (∃ a, a ∈ rest1 ∧
        rowRec m b rest1 cells cur = Except.error (AlignErr.missingEntry a b) ∧
        m.sub a b = none) := by
  intro rest1
  induction rest1 with
  | nil =>
    intro cells cur hlen
    left
    exact ⟨[], by simp [rowRec], rfl, by simp⟩
  | cons a rest ih =>
    intro cells cur hlen
    cases cells with
    | nil => simp at hlen
    | cons diag tail =>
      cases tail with
      | nil => simp at hlen
      | cons above lastrest =>
        cases hsub : m.sub a b with
        | none =>
          right
          refine ⟨a, List.mem_cons_self a rest, ?_, hsub⟩
          simp [rowRec, penaltyPair, hsub]
        | some p =>
          have hlen2 : (above :: lastrest).length = rest.length + 1 := by
            simpa using hlen
          rcases ih (above :: lastrest) (cellChoice m a b diag above cur p) hlen2 with
            ⟨out, hout, hlo, hdef⟩ | ⟨a2, ha2, herr, hnone⟩
          · left
            refine ⟨cellChoice m a b diag above cur p :: out, ?_, ?_, ?_⟩
            · simp only [rowRec, penaltyPair, hsub, hout]
            · simp [hlo]
            · intro x hx
              rcases List.mem_cons.mp hx with hxa | hxr
              · subst hxa
                simp [hsub]
              · exact hdef x hxr
          · right
            refine ⟨a2, List.mem_cons_of_mem a ha2, ?_, hnone⟩
            simp only [rowRec, penaltyPair, hsub, herr]

/-- Either the outer loop succeeds — and then every pair of a remaining
`lstr2` symbol with any `lstr1` symbol was present — or it aborts with a
`missingEntry` error for a genuinely absent pair. -/
theorem nwLoop_cases (m : Model) (l1 l2 : List Sym) :
    ∀ rest2 j lastrow, lastrow.length = l1.length + 1 →
      (∃ out, nwLoop m l1 l2 j rest2 lastrow = Except.ok out ∧ out.length = l1.length + 1 ∧
        ∀ b ∈ rest2, ∀ a ∈ l1, (m.sub a b).isSome) ∨
      (∃ a b2, a ∈ l1 ∧ b2 ∈ rest2 ∧
        nwLoop m l1 l2 j rest2 lastrow = Except.error (AlignErr.missingEntry a b2) ∧
        m.sub a b2 = none) := by
  intro rest2
  induction rest2 with
  | nil =>
    intro j lastrow hlen
    left
    exact ⟨lastrow, by simp [nwLoop], hlen, by simp⟩
  | cons b rest ih =>
    intro j lastrow hlen
    rcases rowRec_cases m b l1 lastrow
        (m.gap * ((j : ℚ) + 1), (List.replicate (j + 1) "-", l2.take (j + 1))) hlen with
      ⟨tail, htail, hlt, hdefb⟩ | ⟨a, ha, herr, hnone⟩
    · have hlen2 : ((m.gap * ((j : ℚ) + 1),
          (List.replicate (j + 1) "-", l2.take (j + 1))) :: tail).length = l1.length + 1 := by
        simp [hlt]
      rcases ih (j + 1) _ hlen2 with ⟨out, hout, hlo, hdefr⟩ | ⟨a, b2, ha, hb2, herr2, hnone⟩
      · left
        refine ⟨out, ?_, hlo, ?_⟩
        · simp only [nwLoop, htail, hout]
        · intro b2 hb2 x hx
          rcases List.mem_cons.mp hb2 with h | h
          · subst h
            exact hdefb x hx
          · exact hdefr b2 h x hx
      · right
        refine ⟨a, b2, ha, List.mem_cons_of_mem b hb2, ?_, hnone⟩
        simp only [nwLoop, htail, herr2]
    · right
      refine ⟨a, b, ha, List.mem_cons_self b rest, ?_, hnone⟩
      simp only [nwLoop, herr]

/-! ## Frame preservation and agreement with the plain form -/

theorem rowRecF_frame (m : Model) (b : Sym) :
    ∀ rest1 cells cur fr, (rowRecF m b rest1 cells cur fr).2 = fr := by
  intro rest1
  induction rest1 with
  | nil =>
    intro cells cur fr
    rfl
  | cons a rest ih =>
    intro cells cur fr
    cases cells with
    | nil => rfl
    | cons diag tail =>
      cases tail with
      | nil => rfl
      | cons above lastrest =>
        cases hsub : m.sub a b with
        | none => simp [rowRecF, penaltyPair, hsub]
        | some p =>
          simp only [rowRecF, penaltyPair, hsub]
          have h2 := ih (above :: lastrest) (cellChoice m a b diag above cur p) fr
          cases hrec : rowRecF m b rest (above :: lastrest)
              (cellChoice m a b diag above cur p) fr with
          | mk z fr2 =>
            rw [hrec] at h2
            cases z with
            | error e => exact h2
            | ok tail2 => exact h2

theorem nwLoopF_frame (m : Model) :
    ∀ rest2 j lastrow fr, (nwLoopF m j rest2 lastrow fr).2 = fr := by
  intro rest2
  induction rest2 with
  | nil =>
    intro j lastrow fr
    rfl
  | cons b rest ih =>
    intro j lastrow fr
    simp only [nwLoopF]
    have hfr := rowRecF_frame m b fr.lstr1 lastrow
      (m.gap * ((j : ℚ) + 1), (List.replicate (j + 1) "-", fr.lstr2.take (j + 1))) fr
    cases hrec : rowRecF m b fr.lstr1 lastrow
        (m.gap * ((j : ℚ) + 1), (List.replicate (j + 1) "-", fr.lstr2.take (j + 1))) fr with
    | mk z fr2 =>
      rw [hrec] at hfr
      cases z with
      | error e => exact hfr
      | ok tail => exact (ih _ _ _).trans hfr

theorem alignF_frame_pres (m : Model) (fr : PyFrame) : (alignF m fr).2 = fr := by
  cases hl2 : fr.lstr2 with
  | nil => simp [alignF, hl2]
  | cons b rest =>
    simp only [alignF, hl2]
    have hfr := nwLoopF_frame m (b :: rest) 0 (row0 m fr.lstr1) fr
    cases hrec : nwLoopF m 0 (b :: rest) (row0 m fr.lstr1) fr with
    | mk z fr2 =>
      rw [hrec] at hfr
      cases z with
      | error e => exact hfr
      | ok finalRow =>
        dsimp only
        cases finalRow[fr2.lstr1.length]? <;> exact hfr

theorem rowRecF_fst (m : Model) (b : Sym) :
    ∀ rest1 cells cur fr, (rowRecF m b rest1 cells cur fr).1 = rowRec m b rest1 cells cur := by
  intro rest1
  induction rest1 with
  | nil =>
    intro cells cur fr
    rfl
  | cons a rest ih =>
    intro cells cur fr
    cases cells with
    | nil => rfl
    | cons diag tail =>
      cases tail with
      | nil => rfl
      | cons above lastrest =>
        cases hsub : m.sub a b with
        | none => simp [rowRecF, rowRec, penaltyPair, hsub]
        | some p =>
          simp only [rowRecF, rowRec, penaltyPair, hsub]
          have hfst := ih (above :: lastrest) (cellChoice m a b diag above cur p) fr
          cases hrec : rowRecF m b rest (above :: lastrest)
              (cellChoice m a b diag above cur p) fr with
          | mk z fr2 =>
            rw [hrec] at hfst
            rw [← hfst]
            cases z <;> rfl

theorem nwLoopF_fst (m : Model) :
    ∀ rest2 j lastrow fr,
      (nwLoopF m j rest2 lastrow fr).1 = nwLoop m fr.lstr1 fr.lstr2 j rest2 lastrow := by
  intro rest2
  induction rest2 with
  | nil =>
    intro j lastrow fr
    rfl
  | cons b rest ih =>
    intro j lastrow fr
    simp only [nwLoopF, nwLoop]
    have hfst := rowRecF_fst m b fr.lstr1 lastrow
      (m.gap * ((j : ℚ) + 1), (List.replicate (j + 1) "-", fr.lstr2.take (j + 1))) fr
    have hfr := rowRecF_frame m b fr.lstr1 lastrow
      (m.gap * ((j : ℚ) + 1), (List.replicate (j + 1) "-", fr.lstr2.take (j + 1))) fr
    cases hrec : rowRecF m b fr.lstr1 lastrow
        (m.gap * ((j : ℚ) + 1), (List.replicate (j + 1) "-", fr.lstr2.take (j + 1))) fr with
    | mk z fr2 =>
      rw [hrec] at hfst hfr
      rw [← hfst]
      cases z with
      | error e => rfl
      | ok tail =>
        have hfr2 : fr2 = fr := hfr
        rw [hfr2]
        exact ih _ _ fr

theorem alignF_fst (m : Model) (fr : PyFrame) :
    (alignF m fr).1 = align m fr.lstr1 fr.lstr2 := by
  cases hl2 : fr.lstr2 with
  | nil => simp [alignF, align, hl2]
  | cons b rest =>
    simp only [alignF, align, hl2]
    have hfst := nwLoopF_fst m (b :: rest) 0 (row0 m fr.lstr1) fr
    rw [hl2] at hfst
    have hfr := nwLoopF_frame m (b :: rest) 0 (row0 m fr.lstr1) fr
    cases hrec : nwLoopF m 0 (b :: rest) (row0 m fr.lstr1) fr with
    | mk z fr2 =>
      rw [hrec] at hfst hfr
      rw [← hfst]
      cases z with
      | error e => rfl
      | ok finalRow =>
        have hfr2 : fr2 = fr := hfr
        rw [hfr2]
        dsimp only
        cases finalRow[fr.lstr1.length]? <;> rfl

/-! ## Lemmas about the cost-model construction -/

/-- A pair already present survives the rest of the fold, provided
every later matching line agrees on the value. -/
theorem foldl_insertLine_stable (weights : List ℚ) :
    ∀ (lines : List ScoreLine) (acc : Sym → Sym → Option ℚ) (a b : Sym) (v : ℚ),
      acc a b = some v →
      (∀ l ∈ lines, ¬(l.sym1 = "GAP" ∨ l.sym2 = "GAP") → l.sym1 = a → l.sym2 = b →
        dotZ l.feats weights = v) →
      (lines.foldl (insertLine weights) acc) a b = some v := by
  intro lines
  induction lines with
  | nil =>
    intro acc a b v h _
    simpa using h
  | cons x rest ih =>
    intro acc a b v h hmatch
    simp only [List.foldl_cons]
    apply ih
    · unfold insertLine
      split_ifs with hgap
      · exact h
      · dsimp only
        by_cases hab : a = x.sym1 ∧ b = x.sym2
        · rw [if_pos hab, hmatch x (List.mem_cons_self x rest) hgap hab.1.symm hab.2.symm]
        · rw [if_neg hab]
          exact h
    · intro l hl
      exact hmatch l (List.mem_cons_of_mem x hl)

/-- Every non-gap line whose symbol pair occurs on no other line ends
up in the table with its zipped dot product. -/
theorem foldl_insertLine_mem (weights : List ℚ) :
    ∀ (lines : List ScoreLine) (acc : Sym → Sym → Option ℚ), ∀ l ∈ lines,
      ¬(l.sym1 = "GAP" ∨ l.sym2 = "GAP") →
      (∀ l2 ∈ lines, l2.sym1 = l.sym1 → l2.sym2 = l.sym2 → l2 = l) →
      (lines.foldl (insertLine weights) acc) l.sym1 l.sym2 =
        some (dotZ l.feats weights) := by
  intro lines
  induction lines with
  | nil =>
    intro acc l hl
    exact absurd hl (List.not_mem_nil l)
  | cons x rest ih =>
    intro acc l hl hgap huniq
    rcases List.mem_cons.mp hl with hlx | hlr
    · subst hlx
      simp only [List.foldl_cons]
      apply foldl_insertLine_stable
      · unfold insertLine
        rw [if_neg hgap]
        simp
      · intro l2 hl2 hgap2 h1 h2
        rw [huniq l2 (List.mem_cons_of_mem l hl2) h1 h2]
    · simp only [List.foldl_cons]
      exact ih (insertLine weights acc x) l hlr hgap
        (fun l2 hl2 => huniq l2 (List.mem_cons_of_mem x hl2))

/-- Every entry of the finished table comes from the accumulator or
from some non-gap line, with the zipped dot product as its value. -/
theorem foldl_insertLine_some (weights : List ℚ) :
    ∀ (lines : List ScoreLine) (acc : Sym → Sym → Option ℚ) (a b : Sym) (q : ℚ),
      (lines.foldl (insertLine weights) acc) a b = some q →
      acc a b = some q ∨
        ∃ l, l ∈ lines ∧ ¬(l.sym1 = "GAP" ∨ l.sym2 = "GAP") ∧ l.sym1 = a ∧ l.sym2 = b ∧
          q = dotZ l.feats weights := by
  intro lines
  induction lines with
  | nil =>
    intro acc a b q h
    left
    simpa using h
  | cons x rest ih =>
    intro acc a b q h
    simp only [List.foldl_cons] at h
    rcases ih _ a b q h with hacc | ⟨l, hl, hg, h1, h2, hq⟩
    · unfold insertLine at hacc
      split_ifs at hacc with hgap
      · left
        exact hacc
      · dsimp only at hacc
        by_cases hab : a = x.sym1 ∧ b = x.sym2
        · rw [if_pos hab] at hacc
          right
          exact ⟨x, List.mem_cons_self x rest, hgap, hab.1.symm, hab.2.symm,
            (Option.some_inj.mp hacc).symm⟩
        · rw [if_neg hab] at hacc
          left
          exact hacc
    · right
      exact ⟨l, List.mem_cons_of_mem x hl, hg, h1, h2, hq⟩

/-! ## Further spec-side lemmas -/

/-- `dotZ` written as an index-wise sum: entry `i` of the vector
multiplies entry `i` of the weight list (so entry 0 multiplies the gap
weight), over the common length. -/
theorem dotZ_eq_sum (v : List ℤ) (w : List ℚ) :
    dotZ v w = ∑ i in Finset.range (min v.length w.length),
      (v.getD i 0 : ℚ) * w.getD i 0 := by
  induction v generalizing w with
  | nil => simp [dotZ]
  | cons x xs ih =>
    cases w with
    | nil => simp [dotZ]
    | cons y ys =>
      have hstep : dotZ (x :: xs) (y :: ys) = (x : ℚ) * y + dotZ xs ys := by
        simp [dotZ]
      rw [hstep, ih ys, List.length_cons, List.length_cons, Nat.succ_min_succ,
        Finset.sum_range_succ']
      simp [add_comm]

/-- Stripping gap markers from a sequence that contains none is the
identity. -/
theorem stripGaps_of_no_gap (l : List Sym) (h : "-" ∉ l) : stripGaps l = l := by
  unfold stripGaps
  rw [List.filter_eq_self]
  intro a ha
  have hne : a ≠ "-" := fun hEq => h (hEq ▸ ha)
  simp [hne]

/-! ## Concrete cost models used in the claim-level evaluations -/

/-- Identity-free substitution model: gap 1, matching symbols cost 0,
any other pair costs 2 (the spec's end-to-end example model). -/
def mUnit : Model := ⟨1, fun a b => if a = b then some 0 else some 2⟩

/-- Gap 1; the only entry is `("a", "x") ↦ 3`. -/
def mS3 : Model := ⟨1, fun a b => if a = "a" ∧ b = "x" then some 3 else none⟩

/-- Gap 1; the only entry is `("b", "y") ↦ 5`. -/
def mS5 : Model := ⟨1, fun a b => if a = "b" ∧ b = "y" then some 5 else none⟩

/-- Gap 2; the only entry is `("c", "z") ↦ 7`. -/
def mS7 : Model := ⟨2, fun a b => if a = "c" ∧ b = "z" then some 7 else none⟩

/-- Gap 1; the only entry aligns the gap marker itself (as a symbol of
the first sequence) with `"x"` at cost 0. -/
def mGapSym : Model := ⟨1, fun a b => if a = "-" ∧ b = "x" then some 0 else none⟩

/-- Gap 1 and an empty pair table. -/
def mNone : Model := ⟨1, fun _ _ => none⟩

/-! ## Claim theorems -/

/-- C1, counterexample to the claim as stated: with the second sequence
empty the minimum over all global alignments exists (here 1, one
deletion), yet `align` raises the unbound-variable error instead of
returning that score, because `row_scores` is only assigned inside the
outer loop. -/
theorem align_empty_seq2_counterexample :
    align mUnit ["a"] [] = Except.error AlignErr.unboundLocal ∧ mc mUnit ["a"] [] = 1 := by
  constructor
  · rfl
  · rw [mc_nil_right]
    norm_num [mUnit]

/-- C1 (amended to nonempty second sequences): whenever `seq2` is
nonempty and every pair penalty over `seq1 × seq2` is present, `align`
succeeds and its score is the minimum, over all global alignments of
the two sequences, of the sum of per-position costs — pair penalty
where both positions hold symbols, gap penalty where either is a gap —
rounded to 2 decimal places only in the returned value (`mc` is the
unrounded minimum, and every internal comparison of the run used
unrounded values). -/
theorem align_score_optimal (m : Model) (l1 l2 : List Sym) (h2 : l2 ≠ [])
    (hdef : ∀ a ∈ l1, ∀ b ∈ l2, (m.sub a b).isSome) :
    ∃ r, align m l1 l2 = Except.ok r ∧ r.score = round2 (mc m l1 l2) ∧
      (∃ st, IsAlignment l1 l2 st ∧ alignCost m st = mc m l1 l2) ∧
      (∀ st, IsAlignment l1 l2 st → mc m l1 l2 ≤ alignCost m st) := by
  obtain ⟨c, hok, hc1, hc2, hc3⟩ := align_ok m l1 l2 h2 hdef
  refine ⟨⟨c.2.1, c.2.2, round2 c.1⟩, hok, ?_, mc_attained m l1 l2,
    fun st hst => mc_le_alignCost m st l1 l2 hst⟩
  show round2 c.1 = round2 (mc m l1 l2)
  rw [hc1]

/-- C1 witness: the theorem applied to the spec's end-to-end example. -/
theorem align_score_optimal_witness :
    ∃ r, align mUnit ["a", "b", "c"] ["a", "c"] = Except.ok r ∧
      r.score = round2 (mc mUnit ["a", "b", "c"] ["a", "c"]) ∧
      (∃ st, IsAlignment ["a", "b", "c"] ["a", "c"] st ∧
        alignCost mUnit st = mc mUnit ["a", "b", "c"] ["a", "c"]) ∧
      (∀ st, IsAlignment ["a", "b", "c"] ["a", "c"] st →
        mc mUnit ["a", "b", "c"] ["a", "c"] ≤ alignCost mUnit st) :=
  align_score_optimal mUnit ["a", "b", "c"] ["a", "c"] (by simp) (by decide)

/-- C2 (code-bug evaluation): with gap 1 and the only pair penalty
`("a","x") ↦ 3`, the insertion and deletion scores tie at 2 below the
match score 3, the insertion branch fires, and line 96's mixing of
`lastrow_strings[i+1][0]` with `lastrow_strings[i][1]` returns aligned
strings of lengths 2 and 1. -/
theorem align_unequal_lengths_eval :
    align mS3 ["a"] ["x"] = Except.ok ⟨["a", "-"], ["x"], 2⟩ ∧
      ¬((["a", "-"] : List Sym).length = (["x"] : List Sym).length) := by
  constructor
  · norm_num +decide [align, nwLoop, rowRec, row0, cellChoice, penaltyPair, mS3, round2,
      roundHalfEven, List.range_succ, min_def]
  · decide

/-- C3 (code-bug evaluation): both degenerate calls the spec declares
valid crash with the unbound-variable error instead of returning the
degenerate alignments, because `row_strings`/`row_scores` are never
assigned when the second sequence is empty. -/
theorem align_empty_inputs_crash :
    align mUnit [] [] = Except.error AlignErr.unboundLocal ∧
      align mUnit ["a", "b"] [] = Except.error AlignErr.unboundLocal :=
  ⟨rfl, rfl⟩

/-- C4, counterexample to the claim as stated: with weights `[1, 2]`
(gap weight 1) and one line for the pair `("a","b")` with mismatch
vector `[1]`, the built table holds penalty `1·1 = 1` (the vector
zipped against the weights *including* the gap weight), while the
spec's dot product excluding the first weight gives `1·2 = 2`. -/
theorem loadScores_gap_weight_counterexample :
    loadedPenalty [1, 2] [⟨"a", "b", "z", [1]⟩] "a" "b" = Except.ok 1 ∧
      specPairPenalty [1] [1, 2] = 2 ∧ ¬((1 : ℚ) = 2) := by
  refine ⟨?_, ?_, by norm_num⟩
  · norm_num +decide [loadedPenalty, loadScores, penaltyPair, insertLine, dotZ]
  · norm_num [specPairPenalty, dotZ]

/-- C4 (amended): the construction succeeds on a nonempty weights line;
the gap penalty is exactly the first feature weight; every non-gap line
whose pair occurs on no other line yields the pair penalty
`∑ i < min |v| |w|, v i · w i` where the weight indexing *includes* the
first (gap) weight at position 0; and every entry of the table comes
from a line whose symbols are both different from the `'GAP'`
placeholder (gap lines contribute no substitution entry). -/
theorem loadScores_spec (w0 : ℚ) (ws : List ℚ) (lines : List ScoreLine) :
    ∃ m, loadScores (w0 :: ws) lines = Except.ok m ∧
      m.gap = w0 ∧
      (∀ l ∈ lines, ¬(l.sym1 = "GAP" ∨ l.sym2 = "GAP") →
        (∀ l2 ∈ lines, l2.sym1 = l.sym1 → l2.sym2 = l.sym2 → l2 = l) →
        m.sub l.sym1 l.sym2 =
          some (∑ i in Finset.range (min l.feats.length (w0 :: ws).length),
            (l.feats.getD i 0 : ℚ) * (w0 :: ws).getD i 0)) ∧
      (∀ a b q, m.sub a b = some q →
        ∃ l, l ∈ lines ∧ ¬(l.sym1 = "GAP" ∨ l.sym2 = "GAP") ∧ l.sym1 = a ∧ l.sym2 = b ∧
          q = dotZ l.feats (w0 :: ws)) := by
  refine ⟨_, rfl, rfl, ?_, ?_⟩
  · intro l hl hgap huniq
    rw [← dotZ_eq_sum]
    exact foldl_insertLine_mem (w0 :: ws) lines _ l hl hgap huniq
  · intro a b q hq
    rcases foldl_insertLine_some (w0 :: ws) lines _ a b q hq with h | h
    · simp at h
    · exact h

/-- C5 (code-bug evaluation): with gap 2 and the only pair penalty
`("c","z") ↦ 7`, `align` returns the pair `(["c","-"], ["z"])` with
score 4, but the per-position cost recomputed from that returned pair
is 7: the returned score does not equal the alignment's own cost. -/
theorem align_score_posCost_mismatch :
    align mS7 ["c"] ["z"] = Except.ok ⟨["c", "-"], ["z"], 4⟩ ∧
      posCost mS7 ["c", "-"] ["z"] = 7 ∧ ¬((7 : ℚ) = 4) := by
  refine ⟨?_, ?_, by norm_num⟩
  · norm_num +decide [align, nwLoop, rowRec, row0, cellChoice, penaltyPair, mS7, round2,
      roundHalfEven, List.range_succ, min_def]
  · norm_num +decide [posCost, subq, mS7]

/-- C6 (code-bug evaluation): at a cell where insertion and deletion
tie (both 2) strictly below the match score (5), the engine does pick
the insertion branch, but the alignment it records is
`(["b","-"], ["y"])` — first string from the cell above, second string
from the diagonal cell — not the insertion extension of the above
predecessor, which would end in `["-","y"]`. -/
theorem tie_break_insert_mixed_eval :
    cellChoice mS5 "b" "y" (0, ([], [])) (1, (["b"], ["-"])) (1, (["-"], ["y"])) 5 =
      (2, (["b", "-"], ["y"])) ∧
    align mS5 ["b"] ["y"] = Except.ok ⟨["b", "-"], ["y"], 2⟩ ∧
      ¬((["y"] : List Sym) = ["-", "y"]) := by
  refine ⟨?_, ?_, by decide⟩
  · norm_num +decide [cellChoice, mS5, min_def]
  · norm_num +decide [align, nwLoop, rowRec, row0, cellChoice, penaltyPair, mS5, round2,
      roundHalfEven, List.range_succ, min_def]

/-- C7, counterexample to the claim as stated: when an input symbol is
itself the gap marker `"-"`, stripping gap markers from the returned
alignment also removes that symbol, so the round trip fails. -/
theorem strip_roundtrip_counterexample :
    align mGapSym ["-"] ["x"] = Except.ok ⟨["-"], ["x"], 0⟩ ∧
      ¬(stripGaps ["-"] = ["-"]) := by
  constructor
  · norm_num +decide [align, nwLoop, rowRec, row0, cellChoice, penaltyPair, mGapSym, round2,
      roundHalfEven, List.range_succ, min_def]
  · decide

/-- C7 (amended to inputs not containing the gap marker): on every
successful call whose inputs contain no `"-"`, removing all gap markers
from the first returned string reproduces `seq1` exactly, and likewise
for the second returned string and `seq2`. -/
theorem align_strip_roundtrip (m : Model) (l1 l2 : List Sym) (r : AlignResult)
    (hg1 : "-" ∉ l1) (hg2 : "-" ∉ l2)
    (hok : align m l1 l2 = Except.ok r) :
    stripGaps r.aligned1 = l1 ∧ stripGaps r.aligned2 = l2 := by
  cases hl2 : l2 with
  | nil =>
    subst hl2
    simp [align] at hok
  | cons b rest =>
    subst hl2
    rcases nwLoop_cases m l1 (b :: rest) (b :: rest) 0 (row0 m l1) (row0_length m l1) with
      ⟨out, hout, hlen, hdef2⟩ | ⟨a2, b2, ha2, hb2, herr, hno⟩
    · have hdef : ∀ a ∈ l1, ∀ b2 ∈ b :: rest, (m.sub a b2).isSome :=
        fun a ha b2 hb2 => hdef2 b2 hb2 a ha
      obtain ⟨c, hok2, hc1, hc2, hc3⟩ := align_ok m l1 (b :: rest) (by simp) hdef
      rw [hok2] at hok
      have hr := Except.ok.inj hok
      subst hr
      rw [stripGaps_of_no_gap l1 hg1] at hc2
      rw [stripGaps_of_no_gap (b :: rest) hg2] at hc3
      exact ⟨hc2, hc3⟩
    · rw [align, herr] at hok
      simp at hok

/-- C7 witness: the theorem applied to the spec's end-to-end example. -/
theorem align_strip_roundtrip_witness :
    stripGaps (AlignResult.mk ["a", "b", "c"] ["a", "-", "c"] 1).aligned1 = ["a", "b", "c"] ∧
      stripGaps (AlignResult.mk ["a", "b", "c"] ["a", "-", "c"] 1).aligned2 = ["a", "c"] :=
  align_strip_roundtrip mUnit ["a", "b", "c"] ["a", "c"] ⟨["a", "b", "c"], ["a", "-", "c"], 1⟩
    (by decide) (by decide)
    (by norm_num +decide [align, nwLoop, rowRec, row0, cellChoice, penaltyPair, mUnit, round2,
      roundHalfEven, List.range_succ, min_def])

/-- C8: a pair absent from the cost model makes the penalty query fail
with `missingEntry` naming that pair, and makes the whole `align` call
abort with a `missingEntry` error naming a genuinely absent pair — no
alignment result is produced and no default penalty is substituted. -/
theorem missingEntry_aborts (m : Model) (l1 l2 : List Sym) (a b : Sym)
    (ha : a ∈ l1) (hb : b ∈ l2) (hnone : m.sub a b = none) :
    penaltyPair m a b = Except.error (AlignErr.missingEntry a b) ∧
    ∃ a2 b2, align m l1 l2 = Except.error (AlignErr.missingEntry a2 b2) ∧
      m.sub a2 b2 = none := by
  constructor
  · simp [penaltyPair, hnone]
  · cases hl2 : l2 with
    | nil =>
      subst hl2
      exact absurd hb (List.not_mem_nil b)
    | cons b0 rest =>
      subst hl2
      rcases nwLoop_cases m l1 (b0 :: rest) (b0 :: rest) 0 (row0 m l1) (row0_length m l1) with
        ⟨out, hout, hlen, hdef⟩ | ⟨a2, b2, ha2, hb2, herr, hno⟩
      · have hsome := hdef b hb a ha
        rw [hnone] at hsome
        simp at hsome
      · refine ⟨a2, b2, ?_, hno⟩
        rw [align, herr]

/-- C8 witness. -/
theorem missingEntry_aborts_witness :
    penaltyPair mNone "p" "q" = Except.error (AlignErr.missingEntry "p" "q") ∧
    ∃ a2 b2, align mNone ["p"] ["q"] = Except.error (AlignErr.missingEntry a2 b2) ∧
      mNone.sub a2 b2 = none :=
  missingEntry_aborts mNone ["p"] ["q"] "p" "q" (by decide) (by decide) rfl

/-- C9: running `align` with the caller's variable frame threaded
through every loop iteration hands the frame back with both input lists
exactly as they were — on the success path and on every error path —
and the result it computes is exactly `align` of the frame's lists. -/
theorem align_inputs_unchanged (m : Model) (fr : PyFrame) :
    (alignF m fr).2.lstr1 = fr.lstr1 ∧ (alignF m fr).2.lstr2 = fr.lstr2 ∧
      (alignF m fr).1 = align m fr.lstr1 fr.lstr2 := by
  refine ⟨?_, ?_, alignF_fst m fr⟩ <;> rw [alignF_frame_pres m fr]

/-- C10: with the penalty table held fixed, two invocations of `align`
on equal inputs return equal results — the computation depends on
nothing but the model and the two sequences. -/
theorem align_deterministic (m m2 : Model) (l1 l2 l1b l2b : List Sym)
    (hm : m = m2) (h1 : l1 = l1b) (h2 : l2 = l2b) :
    align m l1 l2 = align m2 l1b l2b := by
  subst hm
  subst h1
  subst h2
  rfl

/-- C10 witness. -/
theorem align_deterministic_witness :
    align mUnit ["a", "b"] ["b"] = align mUnit ["a", "b"] ["b"] :=
  align_deterministic mUnit mUnit ["a", "b"] ["b"] ["a", "b"] ["b"] rfl rfl rfl

end StringAlign
